import Mathlib

/-!
Shallow embedding of the APE tag codec (`apetag.cpp`) from TagLib.

Strings and byte buffers are modelled as `List Nat` (one entry per
character / byte).  The item store (`ItemListMap`) is modelled as an
association list following the spec's description of the store as an
ordered dictionary keyed by the normalized (upper-cased) key.
External collaborators that are not part of the source file
(`APE::Item`'s binary codec, `APE::Footer`, `StringList`,
`PropertyMap`) are modelled from the spec; each such definition is
marked `Modelled from the spec:` in its doc comment.  Everything else
is a direct translation of the corresponding function in
`apetag.cpp`.
-/

namespace ApeTag

/-- Character list of a Lean string literal, used to write the ASCII
keys that appear in the source as readable literals. -/
def chars (s : String) : List Nat := s.data.map Char.toNat

/-- Upper-casing of a single character code, as `String::upper` acts on
the ASCII letters `a`..`z`. -/
def upperChar (c : Nat) : Nat := if 97 ≤ c ∧ c ≤ 122 then c - 32 else c

/-- Upper-casing of a whole string (`String::upper`). -/
def upperStr (s : List Nat) : List Nat := s.map upperChar

/-- The reserved key words from the anonymous namespace of `apetag.cpp`
(`invalidKeys`). -/
def invalidKeys : List (List Nat) := [chars "ID3", chars "TAG", chars "OGGS", chars "MP+"]

/-- `MinKeyLength` from `apetag.cpp`. -/
def MinKeyLength : Nat := 2

/-- `MaxKeyLength` from `apetag.cpp`. -/
def MaxKeyLength : Nat := 255

/-- `isKeyValid` from the anonymous namespace of `apetag.cpp`: every
byte is printable ASCII (32..126, space included) and the upper-cased
key is none of the reserved words. -/
def isKeyValid (key : List Nat) : Bool :=
  key.all (fun c => !(decide (c < 32) || decide (c > 126))) &&
    !(invalidKeys.contains (upperStr key))

/-- `APE::Tag::checkKey`: the length must lie in
`[MinKeyLength, MaxKeyLength]` and the key bytes must pass
`isKeyValid`. -/
def checkKey (key : List Nat) : Bool :=
  if key.length < MinKeyLength || key.length > MaxKeyLength then false
  else isKeyValid key

/-- Modelled from the spec: the three item value types of the external
`APE::Item` collaborator (Text, Binary, Locator). -/
inductive ItemType where
  | Text : ItemType
  | Binary : ItemType
  | Locator : ItemType
deriving DecidableEq

/-- Modelled from the spec: one metadata record of the external
`APE::Item` collaborator — a case-preserving key, a type, an ordered
sequence of string values (Text items) and a single binary payload
(Binary/Locator items). -/
structure Item where
  key : List Nat
  type : ItemType
  values : List (List Nat)
  data : List Nat
deriving DecidableEq

/-- Modelled from the spec: the default-constructed `APE::Item()` — a
Text item with no values. -/
def defaultItem : Item := ⟨[], ItemType.Text, [], []⟩

/-- Modelled from the spec: `APE::Item::isEmpty` — a Text item is empty
when it has no values, a Binary/Locator item when its payload is
empty. -/
def itemIsEmpty (it : Item) : Bool :=
  match it.type with
  | ItemType.Text => it.values.isEmpty
  | _ => it.data.isEmpty

/-- Modelled from the spec: `Item(key, value)` — a Text item holding a
single value. -/
def mkTextItem (key value : List Nat) : Item := ⟨key, ItemType.Text, [value], []⟩

/-- Modelled from the spec: `Item(key, value, true)` — a Binary item
holding one binary payload. -/
def mkBinaryItem (key value : List Nat) : Item := ⟨key, ItemType.Binary, [], value⟩

/-- Modelled from the spec: `APE::Item::appendValue` — appends one more
value to a Text item (Text items are append-only until replaced). -/
def appendValue (it : Item) (value : List Nat) : Item :=
  { it with values := it.values ++ [value] }

/-- Modelled from the spec: the Item Store is an ordered dictionary
from normalized key to `Item` (the source's `ItemListMap`,
a `Map<String, Item>` collaborator). -/
abbrev ItemListMap : Type := List (List Nat × Item)

/-- Modelled from the spec: map insertion — overwrites the entry with
the same key in place, otherwise appends a new entry. -/
def mapInsert (k : List Nat) (it : Item) : ItemListMap → ItemListMap
  | [] => [(k, it)]
  | kv :: rest => if kv.1 = k then (k, it) :: rest else kv :: mapInsert k it rest

/-- Modelled from the spec: map erasure — removes the entry under the
given key; erasing an absent key is a no-op. -/
def mapErase (k : List Nat) (m : ItemListMap) : ItemListMap :=
  m.filter (fun kv => kv.1 ≠ k)

/-- Modelled from the spec: map lookup. -/
def mapLookup (k : List Nat) (m : ItemListMap) : Option Item :=
  (m.find? (fun kv => kv.1 = k)).map Prod.snd

/-- Modelled from the spec: `Map::value` — the looked-up item, or the
default-constructed item when the key is absent. -/
def mapValue (k : List Nat) (m : ItemListMap) : Item :=
  (mapLookup k m).getD defaultItem

/-- `APE::Tag::removeItem`: erases the entry under the upper-cased
key. -/
def removeItem (key : List Nat) (m : ItemListMap) : ItemListMap :=
  mapErase (upperStr key) m

/-- `APE::Tag::setItem`: rejects invalid keys (no-op with only an
advisory diagnostic), otherwise stores the item under the upper-cased
key. -/
def setItem (key : List Nat) (item : Item) (m : ItemListMap) : ItemListMap :=
  if checkKey key = false then m
  else mapInsert (upperStr key) item m

/-- `APE::Tag::addValue`: optionally replaces the existing entry, drops
empty values, appends to an existing Text item, and otherwise creates
a fresh single-valued Text item via `setItem`. -/
def addValue (key value : List Nat) (replace : Bool) (m : ItemListMap) : ItemListMap :=
  let m1 := if replace then removeItem key m else m
  if value.isEmpty then m1
  else
    match mapLookup (upperStr key) m1 with
    | some it =>
      if it.type = ItemType.Text then mapInsert (upperStr key) (appendValue it value) m1
      else setItem key (mkTextItem key value) m1
    | none => setItem key (mkTextItem key value) m1

/-- `APE::Tag::setData`: always removes the existing entry, then stores
a Binary item unless the payload is empty. -/
def setData (key value : List Nat) (m : ItemListMap) : ItemListMap :=
  let m1 := removeItem key m
  if value.isEmpty then m1
  else setItem key (mkBinaryItem key value) m1

/-- Modelled from the spec: `Item::toString` — the first value of a
Text item (the `StringList` collaborator). -/
def itemToString (it : Item) : List Nat := it.values.headD []

/-- Modelled from the spec: the typed getters read the first value of
the Text item (`Item::values()` joined through the `StringList`
collaborator, described by the spec as reading the first value). -/
def itemValuesToString (it : Item) : List Nat := it.values.headD []

/-- Modelled from the spec: `String::toInt` — parse a leading run of
ASCII digits as an unsigned integer. -/
def strToNat (s : List Nat) : Nat :=
  (s.takeWhile (fun c => decide (48 ≤ c) && decide (c ≤ 57))).foldl
    (fun acc c => acc * 10 + (c - 48)) 0

/-- `APE::Tag::title`. -/
def tagTitle (m : ItemListMap) : List Nat :=
  let value := mapValue (chars "TITLE") m
  if itemIsEmpty value then [] else itemValuesToString value

/-- `APE::Tag::artist`. -/
def tagArtist (m : ItemListMap) : List Nat :=
  let value := mapValue (chars "ARTIST") m
  if itemIsEmpty value then [] else itemValuesToString value

/-- `APE::Tag::album`. -/
def tagAlbum (m : ItemListMap) : List Nat :=
  let value := mapValue (chars "ALBUM") m
  if itemIsEmpty value then [] else itemValuesToString value

/-- `APE::Tag::comment`. -/
def tagComment (m : ItemListMap) : List Nat :=
  let value := mapValue (chars "COMMENT") m
  if itemIsEmpty value then [] else itemValuesToString value

/-- `APE::Tag::genre`. -/
def tagGenre (m : ItemListMap) : List Nat :=
  let value := mapValue (chars "GENRE") m
  if itemIsEmpty value then [] else itemValuesToString value

/-- `APE::Tag::year`: `0` when the YEAR item is absent or empty,
otherwise its first value parsed as an unsigned integer. -/
def tagYear (m : ItemListMap) : Nat :=
  let value := mapValue (chars "YEAR") m
  if itemIsEmpty value then 0 else strToNat (itemToString value)

/-- Byte access into a buffer; positions past the end read as 0, which
matches `ByteVector::toUInt` summing only the available bytes. -/
def byteAt : List Nat → Nat → Nat
  | [], _ => 0
  | c :: _, 0 => c
  | _ :: rest, i + 1 => byteAt rest i

/-- `ByteVector::toUInt(offset, false)`: a 4-byte little-endian read at
the given offset. -/
def toUInt (d : List Nat) (pos : Nat) : Nat :=
  byteAt d pos + 256 * byteAt d (pos + 1) + 65536 * byteAt d (pos + 2) +
    16777216 * byteAt d (pos + 3)

/-- Modelled from the spec: the 4-byte little-endian encoding of an
unsigned length or flags field. -/
def toLE4 (n : Nat) : List Nat :=
  [n % 256, n / 256 % 256, n / 65536 % 256, n / 16777216 % 256]

/-- Index of the first zero byte of a list, if any. -/
def idxOfZero : List Nat → Option Nat
  | [] => none
  | c :: rest => if c = 0 then some 0 else (idxOfZero rest).map (· + 1)

/-- `ByteVector::find('\0', start)`: absolute index of the first NUL
byte at or after `start`, or `none` (the source's `-1`). -/
def find0 (d : List Nat) (start : Nat) : Option Nat :=
  (idxOfZero (d.drop start)).map (start + ·)

/-- Modelled from the spec: the numeric type code stored in the item
flags (bits 1..2): Text = 0, Binary = 1, Locator = 2. -/
def typeCode : ItemType → Nat
  | ItemType.Text => 0
  | ItemType.Binary => 1
  | ItemType.Locator => 2

/-- Modelled from the spec: decoding of the type code read back from
the flags field; unknown codes fall back to Text. -/
def typeOfCode (n : Nat) : ItemType :=
  match n with
  | 0 => ItemType.Text
  | 1 => ItemType.Binary
  | 2 => ItemType.Locator
  | _ => ItemType.Text

/-- Modelled from the spec: the raw value bytes of one rendered item —
Text values joined with NUL separators, the binary payload
otherwise. -/
def itemValueData (it : Item) : List Nat :=
  match it.type with
  | ItemType.Text => List.intercalate [0] it.values
  | _ => it.data

/-- Modelled from the spec: `APE::Item::render` record layout — a
4-byte little-endian value length, 4-byte little-endian flags encoding
the type, the NUL-terminated key, then the raw value bytes. -/
def itemRender (it : Item) : List Nat :=
  toLE4 (itemValueData it).length ++ toLE4 (2 * typeCode it.type) ++ it.key ++ [0] ++
    itemValueData it

/-- Modelled from the spec: `APE::Item::parse` on the byte slice
starting at the record — reads the value length and flags, the
NUL-terminated key at offset 8, then exactly `valueLength` value bytes
(split on NUL into the value sequence for Text items). -/
def itemParse (d : List Nat) : Item :=
  let vl := toUInt d 0
  let flags := toUInt d 4
  let key := (d.drop 8).takeWhile (fun c => decide (c ≠ 0))
  let value := (d.drop (9 + key.length)).take vl
  match typeOfCode (flags / 2 % 4) with
  | ItemType.Text => ⟨key, ItemType.Text, value.splitOn 0, []⟩
  | ty => ⟨key, ty, [], value⟩

/-- The loop of `APE::Tag::parse`, with the remaining iteration count
(`itemCount - i`) as explicit fuel.  Each iteration: find the NUL
key/value separator from `pos + 8` (none stops the parse); read the
little-endian value length at `pos`; an out-of-range value length
stops the parse; a record whose key length lies in
`[MinKeyLength, MaxKeyLength]` and whose key bytes pass `isKeyValid`
is decoded and inserted under its upper-cased key, any other record is
skipped; then `pos` advances by `keyLength + valLength + 9`. -/
def parseLoop (d : List Nat) : Nat → Nat → ItemListMap → ItemListMap
  | 0, _, m => m
  | fuel + 1, pos, m =>
    if pos + 11 ≤ d.length then
      match find0 d (pos + 8) with
      | none => m
      | some nullPos =>
        let keyLength := nullPos - pos - 8
        let valLength := toUInt d pos
        if valLength ≥ d.length ∨ pos > d.length - valLength then m
        else
          let m2 :=
            if MinKeyLength ≤ keyLength ∧ keyLength ≤ MaxKeyLength ∧
                isKeyValid ((d.drop (pos + 8)).take keyLength) = true then
              let item := itemParse (d.drop pos)
              mapInsert (upperStr item.key) item m
            else m
          parseLoop d fuel (pos + keyLength + valLength + 9) m2
    else m

/-- `APE::Tag::parse`: buffers shorter than the 11-byte minimum item
size are rejected up front, otherwise the loop runs for at most the
footer's item count. -/
def tagParse (d : List Nat) (itemCount : Nat) (m : ItemListMap) : ItemListMap :=
  if d.length < 11 then m
  else parseLoop d itemCount 0 m

/-- The item-data portion produced by `APE::Tag::render`: every item of
the store rendered once, in iteration order, concatenated. -/
def renderItems : ItemListMap → List Nat
  | [] => []
  | kv :: rest => itemRender kv.2 ++ renderItems rest

/-- The item count that `APE::Tag::render` stores into the footer
(`setItemCount`): one per store entry. -/
def renderItemCount (m : ItemListMap) : Nat := m.length

/-- Modelled from the spec: the externally decoded footer state that
`APE::Tag::read` consults — the reported total tag size and item
count (`Footer::setData` is the external collaborator that fills it
from the 32-byte footer block). -/
structure Footer where
  tagSize : Nat
  itemCount : Nat
deriving DecidableEq

/-- Modelled from the spec: `Footer::size()`, the fixed byte size of
the footer structure (8-byte magic, version, tag size, item count,
flags, reserved). -/
def footerSize : Nat := 32

/-- `APE::Tag::read` after the footer block has been decoded: when the
reported tag size is not larger than the footer structure or exceeds
the file length, the store is left as it is (the silent no-tag
outcome); otherwise the tag body in front of the footer is read and
parsed.  The function is total: no error is propagated. -/
def tagRead (file : List Nat) (footerLocation : Nat) (footer : Footer)
    (m : ItemListMap) : ItemListMap :=
  if footer.tagSize ≤ footerSize || footer.tagSize > file.length then m
  else
    tagParse
      ((file.drop (footerLocation + footerSize - footer.tagSize)).take
        (footer.tagSize - footerSize))
      footer.itemCount m

/-- Modelled from the spec: the generic property map collaborator — an
ordered mapping from an upper-case key to an ordered sequence of
string values. -/
abbrev PropMap : Type := List (List Nat × List (List Nat))

/-- Modelled from the spec: property-map lookup (keys are normalized to
upper case on every access). -/
def propLookup (k : List Nat) (p : PropMap) : Option (List (List Nat)) :=
  (p.find? (fun kv => kv.1 = upperStr k)).map Prod.snd

/-- Modelled from the spec: `PropertyMap::contains`. -/
def propContains (k : List Nat) (p : PropMap) : Bool :=
  (propLookup k p).isSome

/-- Modelled from the spec: `PropertyMap::operator[]` read access. -/
def propGet (k : List Nat) (p : PropMap) : List (List Nat) :=
  (propLookup k p).getD []

/-- Modelled from the spec: `PropertyMap::insert` — appends the values
to an existing entry under the normalized key, otherwise adds a new
entry. -/
def propInsert (k : List Nat) (v : List (List Nat)) : PropMap → PropMap
  | [] => [(upperStr k, v)]
  | kv :: rest =>
    if kv.1 = upperStr k then (kv.1, kv.2 ++ v) :: rest
    else kv :: propInsert k v rest

/-- Modelled from the spec: `PropertyMap::erase`. -/
def propErase (k : List Nat) (p : PropMap) : PropMap :=
  p.filter (fun kv => kv.1 ≠ upperStr k)

/-- The `keyConversions` alias table of `apetag.cpp`
(canonical name, on-disk APE name). -/
def keyConversions : List (List Nat × List Nat) :=
  [(chars "TRACKNUMBER", chars "TRACK"),
   (chars "DATE", chars "YEAR"),
   (chars "ALBUMARTIST", chars "ALBUM ARTIST"),
   (chars "DISCNUMBER", chars "DISC"),
   (chars "REMIXER", chars "MIXARTIST"),
   (chars "RELEASESTATUS", chars "MUSICBRAINZ_ALBUMSTATUS"),
   (chars "RELEASETYPE", chars "MUSICBRAINZ_ALBUMTYPE")]

/-- The alias-translation pass at the start of
`APE::Tag::setProperties`: for every conversion pair whose canonical
key occurs in the incoming map, its values are re-inserted under the
on-disk key and the canonical key is erased. -/
def translateProps (p : PropMap) : PropMap :=
  keyConversions.foldl
    (fun acc kt =>
      if propContains kt.1 acc then propErase kt.1 (propInsert kt.2 (propGet kt.1 acc) acc)
      else acc)
    p

/-- The removal pass of `APE::Tag::setProperties`: every store entry
whose upper-cased key is non-empty, whose item is Text-typed and whose
key is absent from the incoming map is removed. -/
def removalPass (props : PropMap) (m : ItemListMap) : ItemListMap :=
  let toRemove :=
    (m.filter (fun kv =>
      !(upperStr kv.1).isEmpty && decide (kv.2.type = ItemType.Text) &&
        !propContains (upperStr kv.1) props)).map Prod.fst
  toRemove.foldl (fun acc k => removeItem k acc) m

/-- The forward (apply) pass of `APE::Tag::setProperties`: an invalid
key is collected into the invalid result; an entry whose values
already match the store is skipped; an empty value list removes the
item; otherwise the first value replaces the item and the remaining
values are appended. -/
def applyPass : PropMap → PropMap × ItemListMap → PropMap × ItemListMap
  | [], acc => acc
  | (tagName, value) :: rest, (invalid, st) =>
    if checkKey tagName = false then
      applyPass rest (propInsert tagName value invalid, st)
    else if (mapLookup tagName st).map Item.values = some value then
      applyPass rest (invalid, st)
    else
      match value with
      | [] => applyPass rest (invalid, removeItem tagName st)
      | v :: vs =>
        applyPass rest
          (invalid, vs.foldl (fun s w => addValue tagName w false s) (addValue tagName v true st))

/-- `APE::Tag::setProperties`: alias translation, then the removal
pass, then the apply pass; returns the invalid properties and the
resulting store. -/
def setProperties (props : PropMap) (m : ItemListMap) : PropMap × ItemListMap :=
  let p := translateProps props
  applyPass p ([], removalPass p m)

/-- The key-normalization invariant of the item store: every key in
the map equals its own upper-cased form. -/
def normKeys (m : ItemListMap) : Prop := ∀ kv ∈ m, upperStr kv.1 = kv.1

instance (m : ItemListMap) : Decidable (normKeys m) :=
  decidable_of_iff (∀ kv ∈ m, upperStr kv.1 = kv.1) Iff.rfl

/-- Well-formedness of one store entry for the render/parse round
trip: the item key passes `checkKey`, the map key is the item key
upper-cased, Text items carry at least one NUL-free value made of
bytes and no binary payload, Binary/Locator items carry no text values
and a byte payload, and the rendered value length fits the 4-byte
length field. -/
def itemWF (kv : List Nat × Item) : Bool :=
  checkKey kv.2.key && decide (kv.1 = upperStr kv.2.key) &&
    (match kv.2.type with
     | ItemType.Text =>
       !kv.2.values.isEmpty &&
         kv.2.values.all (fun v => v.all (fun c => decide (c ≠ 0) && decide (c < 256))) &&
         kv.2.data.isEmpty &&
         decide ((List.intercalate [0] kv.2.values).length < 4294967296)
     | _ =>
       kv.2.values.isEmpty && kv.2.data.all (fun c => decide (c < 256)) &&
         decide (kv.2.data.length < 4294967296))

/-- Well-formedness of a whole store for the round trip: pairwise
distinct map keys and well-formed entries. -/
def storeWF (s : ItemListMap) : Prop :=
  (s.map Prod.fst).Nodup ∧ ∀ kv ∈ s, itemWF kv = true

instance (s : ItemListMap) : Decidable (storeWF s) :=
  decidable_of_iff ((s.map Prod.fst).Nodup ∧ ∀ kv ∈ s, itemWF kv = true) Iff.rfl

/-- C4: `checkKey key` returns `true` exactly when the key length lies
in `[2, 255]`, every byte is printable ASCII in `[32, 126]`, and the
upper-cased key is none of `ID3`, `TAG`, `OGGS`, `MP+`; in particular
it accepts `TITLE` and `MY CUSTOM KEY`. -/
theorem checkKey_spec :
    (∀ key : List Nat,
      checkKey key = true ↔
        (2 ≤ key.length ∧ key.length ≤ 255 ∧
          (∀ c ∈ key, 32 ≤ c ∧ c ≤ 126) ∧
          upperStr key ∉ invalidKeys)) ∧
    checkKey (chars "TITLE") = true ∧
    checkKey (chars "MY CUSTOM KEY") = true := by
  refine ⟨fun key => ?_, by decide, by decide⟩
  have hvalid : isKeyValid key = true ↔
      ((∀ c ∈ key, 32 ≤ c ∧ c ≤ 126) ∧ upperStr key ∉ invalidKeys) := by
    simp only [isKeyValid, Bool.and_eq_true, List.all_eq_true]
    constructor
    · rintro ⟨h1, h2⟩
      refine ⟨fun c hc => ?_, ?_⟩
      · have := h1 c hc
        simp at this
        omega
      · simpa using h2
    · rintro ⟨h1, h2⟩
      refine ⟨fun c hc => ?_, ?_⟩
      · have := h1 c hc
        simp
        omega
      · simpa using h2
  cases hlen : (decide (key.length < MinKeyLength) || decide (key.length > MaxKeyLength)) with
  | true =>
    have hl : key.length < 2 ∨ 255 < key.length := by
      have := hlen
      simp [MinKeyLength, MaxKeyLength] at this
      omega
    unfold checkKey
    rw [hlen, if_pos rfl]
    simp only [Bool.false_eq_true, false_iff]
    rintro ⟨h1, h2, -, -⟩
    omega
  | false =>
    have hl : 2 ≤ key.length ∧ key.length ≤ 255 := by
      have := hlen
      simp [MinKeyLength, MaxKeyLength] at this
      omega
    unfold checkKey
    rw [hlen]
    simp only [Bool.false_eq_true, if_false]
    rw [hvalid]
    constructor
    · rintro ⟨h1, h2⟩
      exact ⟨hl.1, hl.2, h1, h2⟩
    · rintro ⟨_, _, h1, h2⟩
      exact ⟨h1, h2⟩

theorem mapLookup_erase_self (k : List Nat) (m : ItemListMap) :
    mapLookup k (mapErase k m) = none := by
  induction m with
  | nil => rfl
  | cons kv rest ih =>
    by_cases h : kv.1 = k
    · simp only [mapErase, mapLookup] at ih ⊢
      simp [h, ih]
    · simp only [mapErase, mapLookup] at ih ⊢
      simp [h, ih]

/-- C6: `setItem` with a key failing `checkKey` leaves the item store
completely unchanged (and, being a total function, signals no
exception or abort — the source only emits an advisory `debug`
diagnostic). -/
theorem setItem_invalid_key_noop (key : List Nat) (item : Item) (m : ItemListMap)
    (h : checkKey key = false) : setItem key item m = m := by
  unfold setItem
  rw [h]
  rfl

/-- Witness for C6: setting an item under the too-short key `A` leaves
a concrete one-entry store untouched. -/
theorem setItem_invalid_key_noop_witness :
    checkKey (chars "A") = false ∧
      setItem (chars "A") (mkTextItem (chars "A") (chars "x"))
        [(chars "TITLE", mkTextItem (chars "Title") (chars "t"))] =
        [(chars "TITLE", mkTextItem (chars "Title") (chars "t"))] :=
  ⟨by decide,
    setItem_invalid_key_noop (chars "A") (mkTextItem (chars "A") (chars "x"))
      [(chars "TITLE", mkTextItem (chars "Title") (chars "t"))] (by decide)⟩

/-- C7: adding an empty value adds nothing — with `replace = false` the
store is unchanged, with `replace = true` the net effect is deletion of
the upper-cased key; in particular after `addValue "YEAR" "" true`,
`year()` returns `0` and the key `YEAR` is absent. -/
theorem addValue_empty_value (key : List Nat) (m : ItemListMap) :
    addValue key [] false m = m ∧
    addValue key [] true m = mapErase (upperStr key) m ∧
    tagYear (addValue (chars "YEAR") [] true m) = 0 ∧
    mapLookup (chars "YEAR") (addValue (chars "YEAR") [] true m) = none := by
  have hup : upperStr (chars "YEAR") = chars "YEAR" := by decide
  have h1 : addValue key [] false m = m := rfl
  have h2 : ∀ key2 : List Nat, addValue key2 [] true m = mapErase (upperStr key2) m :=
    fun key2 => rfl
  have h4 : mapLookup (chars "YEAR") (addValue (chars "YEAR") [] true m) = none := by
    rw [h2, hup]
    exact mapLookup_erase_self _ _
  refine ⟨h1, h2 key, ?_, h4⟩
  unfold tagYear mapValue
  rw [h4]
  rfl

theorem getter_absent (k : List Nat) (m : ItemListMap) (h : mapLookup k m = none) :
    (if itemIsEmpty (mapValue k m) then [] else itemValuesToString (mapValue k m)) = [] := by
  simp [mapValue, h, defaultItem, itemIsEmpty]

theorem getter_text (k : List Nat) (m : ItemListMap) (it : Item)
    (h : mapLookup k m = some it) (ht : it.type = ItemType.Text) :
    (if itemIsEmpty (mapValue k m) then [] else itemValuesToString (mapValue k m)) =
      it.values.headD [] := by
  have hv : mapValue k m = it := by simp [mapValue, h]
  rw [hv]
  cases hval : it.values with
  | nil => simp [itemIsEmpty, ht, hval, itemValuesToString]
  | cons a rest => simp [itemIsEmpty, ht, hval, itemValuesToString]

/-- C9: each typed getter (title/artist/album/comment/genre) returns
the first value of the Text item stored under its fixed key, and the
empty string when no item is present under that key. -/
theorem typed_getters (m : ItemListMap) :
    ((mapLookup (chars "TITLE") m = none → tagTitle m = []) ∧
      (∀ it, mapLookup (chars "TITLE") m = some it → it.type = ItemType.Text →
        tagTitle m = it.values.headD [])) ∧
    ((mapLookup (chars "ARTIST") m = none → tagArtist m = []) ∧
      (∀ it, mapLookup (chars "ARTIST") m = some it → it.type = ItemType.Text →
        tagArtist m = it.values.headD [])) ∧
    ((mapLookup (chars "ALBUM") m = none → tagAlbum m = []) ∧
      (∀ it, mapLookup (chars "ALBUM") m = some it → it.type = ItemType.Text →
        tagAlbum m = it.values.headD [])) ∧
    ((mapLookup (chars "COMMENT") m = none → tagComment m = []) ∧
      (∀ it, mapLookup (chars "COMMENT") m = some it → it.type = ItemType.Text →
        tagComment m = it.values.headD [])) ∧
    ((mapLookup (chars "GENRE") m = none → tagGenre m = []) ∧
      (∀ it, mapLookup (chars "GENRE") m = some it → it.type = ItemType.Text →
        tagGenre m = it.values.headD [])) := by
  refine ⟨⟨fun h => ?_, fun it h ht => ?_⟩, ⟨fun h => ?_, fun it h ht => ?_⟩,
    ⟨fun h => ?_, fun it h ht => ?_⟩, ⟨fun h => ?_, fun it h ht => ?_⟩,
    ⟨fun h => ?_, fun it h ht => ?_⟩⟩
  · exact getter_absent _ m h
  · exact getter_text _ m it h ht
  · exact getter_absent _ m h
  · exact getter_text _ m it h ht
  · exact getter_absent _ m h
  · exact getter_text _ m it h ht
  · exact getter_absent _ m h
  · exact getter_text _ m it h ht
  · exact getter_absent _ m h
  · exact getter_text _ m it h ht

/-- Witness for C9: on a concrete store the TITLE getter returns the
first of two values and the GENRE getter returns the empty string. -/
theorem typed_getters_witness :
    tagTitle [(chars "TITLE", ⟨chars "Title", ItemType.Text, [chars "A", chars "B"], []⟩)] =
      chars "A" ∧
    tagGenre [(chars "TITLE", ⟨chars "Title", ItemType.Text, [chars "A", chars "B"], []⟩)] =
      [] := by
  constructor
  · have h := (typed_getters
      [(chars "TITLE", ⟨chars "Title", ItemType.Text, [chars "A", chars "B"], []⟩)]).1.2
      ⟨chars "Title", ItemType.Text, [chars "A", chars "B"], []⟩ (by decide) (by decide)
    rw [h]
    decide
  · have h := (typed_getters
      [(chars "TITLE", ⟨chars "Title", ItemType.Text, [chars "A", chars "B"], []⟩)]).2.2.2.2.1
      (by decide)
    exact h

/-- C2: whenever an iteration of the parse loop finds no NUL separator
at or after `pos + 8`, or reads a value length that is not less than
the buffer size, or a value length for which `pos` runs past the
buffer end, the entire parse stops at that point: no further items are
decoded and the store accumulated so far is returned unchanged. -/
theorem parse_stops_on_corruption (d : List Nat) (fuel pos : Nat) (m : ItemListMap)
    (hpos : pos + 11 ≤ d.length)
    (h : find0 d (pos + 8) = none ∨
      toUInt d pos ≥ d.length ∨ pos > d.length - toUInt d pos) :
    parseLoop d (fuel + 1) pos m = m := by
  rw [parseLoop, if_pos hpos]
  rcases h with hfind | hbound
  · rw [hfind]
  · cases hf : find0 d (pos + 8) with
    | none => rfl
    | some nullPos =>
      simp only
      rw [if_pos hbound]

/-- Witness for C2: a single 11-byte record whose value length field
reads `0xFFFFFFFF` stops the parse, leaving the previously accumulated
one-item store unchanged. -/
theorem parse_stops_on_corruption_witness :
    parseLoop [255, 255, 255, 255, 0, 0, 0, 0, 65, 66, 0] 1 0
        [(chars "X1", mkTextItem (chars "X1") (chars "v"))] =
      [(chars "X1", mkTextItem (chars "X1") (chars "v"))] :=
  parse_stops_on_corruption [255, 255, 255, 255, 0, 0, 0, 0, 65, 66, 0] 0 0
    [(chars "X1", mkTextItem (chars "X1") (chars "v"))] (by decide)
    (Or.inr (Or.inl (by decide)))

/-- C3: when an iteration of the parse loop finds the NUL separator
and an in-range value length but the key fails validation (key length
outside `[MinKeyLength, MaxKeyLength]` or bytes rejected by
`isKeyValid`), exactly that record is skipped: nothing is inserted and
the loop continues at `pos + keyLength + valLength + 9`. -/
theorem parse_skips_invalid_key (d : List Nat) (fuel pos nullPos : Nat) (m : ItemListMap)
    (hpos : pos + 11 ≤ d.length)
    (hfind : find0 d (pos + 8) = some nullPos)
    (hbound : ¬(toUInt d pos ≥ d.length ∨ pos > d.length - toUInt d pos))
    (hkey : ¬(MinKeyLength ≤ nullPos - pos - 8 ∧ nullPos - pos - 8 ≤ MaxKeyLength ∧
      isKeyValid ((d.drop (pos + 8)).take (nullPos - pos - 8)) = true)) :
    parseLoop d (fuel + 1) pos m =
      parseLoop d fuel (pos + (nullPos - pos - 8) + toUInt d pos + 9) m := by
  rw [parseLoop, if_pos hpos, hfind]
  simp only
  rw [if_neg hbound, if_neg hkey]

/-- Witness for C3: a buffer of two records, the first with the
invalid key bytes `[1, 65]`, the second a well-formed `AB` record; the
loop skips the first record, continues at offset 12, and the
continuation decodes the second record. -/
theorem parse_skips_invalid_key_witness :
    parseLoop
        [1, 0, 0, 0, 0, 0, 0, 0, 1, 65, 0, 120,
          1, 0, 0, 0, 0, 0, 0, 0, 65, 66, 0, 121] 2 0 [] =
      parseLoop
        [1, 0, 0, 0, 0, 0, 0, 0, 1, 65, 0, 120,
          1, 0, 0, 0, 0, 0, 0, 0, 65, 66, 0, 121] 1 12 [] ∧
    parseLoop
        [1, 0, 0, 0, 0, 0, 0, 0, 1, 65, 0, 120,
          1, 0, 0, 0, 0, 0, 0, 0, 65, 66, 0, 121] 1 12 [] =
      [(chars "AB", ⟨chars "AB", ItemType.Text, [[121]], []⟩)] :=
  ⟨parse_skips_invalid_key
      [1, 0, 0, 0, 0, 0, 0, 0, 1, 65, 0, 120,
        1, 0, 0, 0, 0, 0, 0, 0, 65, 66, 0, 121] 1 0 10 []
      (by decide) (by decide) (by decide) (by decide),
    by decide⟩

/-- C5: when the footer reports a tag size not greater than the footer
structure size, or greater than the file length, `read` leaves the
(empty) item store empty; `tagRead` is a total function, so no error
is propagated. -/
theorem read_bad_tag_size (file : List Nat) (footerLocation : Nat) (footer : Footer)
    (h : footer.tagSize ≤ footerSize ∨ footer.tagSize > file.length) :
    tagRead file footerLocation footer [] = [] := by
  unfold tagRead
  have hc : (decide (footer.tagSize ≤ footerSize) ||
      decide (footer.tagSize > file.length)) = true := by
    rcases h with h | h <;> simp [h]
  rw [hc, if_pos rfl]

/-- Witness for C5: a footer reporting a 100-byte tag against a 50-byte
file leaves the store empty. -/
theorem read_bad_tag_size_witness :
    tagRead (List.replicate 50 0) 18 ⟨100, 3⟩ [] = [] :=
  read_bad_tag_size (List.replicate 50 0) 18 ⟨100, 3⟩ (by decide)

theorem upperChar_idem (c : Nat) : upperChar (upperChar c) = upperChar c := by
  unfold upperChar
  by_cases h : 97 ≤ c ∧ c ≤ 122
  · rw [if_pos h, if_neg (by omega)]
  · rw [if_neg h, if_neg h]

theorem upperStr_idem (s : List Nat) : upperStr (upperStr s) = upperStr s := by
  induction s with
  | nil => rfl
  | cons c rest ih =>
    simp only [upperStr, List.map_cons] at ih ⊢
    rw [upperChar_idem, ih]

theorem normKeys_tail (kv0 : List Nat × Item) (m : ItemListMap)
    (h : normKeys (kv0 :: m)) : normKeys m :=
  fun kv hkv => h kv (List.mem_cons_of_mem _ hkv)

theorem normKeys_mapInsert (k : List Nat) (it : Item) (m : ItemListMap)
    (hk : upperStr k = k) (h : normKeys m) : normKeys (mapInsert k it m) := by
  induction m with
  | nil =>
    intro kv hkv
    simp only [mapInsert, List.mem_singleton] at hkv
    rw [hkv]
    exact hk
  | cons kv0 rest ih =>
    unfold mapInsert
    by_cases hq : kv0.1 = k
    · rw [if_pos hq]
      intro kv hkv
      rcases List.mem_cons.mp hkv with hkv | hkv
      · rw [hkv]; exact hk
      · exact h kv (List.mem_cons_of_mem _ hkv)
    · rw [if_neg hq]
      intro kv hkv
      rcases List.mem_cons.mp hkv with hkv | hkv
      · rw [hkv]; exact h kv0 (List.mem_cons_self _ _)
      · exact ih (normKeys_tail _ _ h) kv hkv

theorem normKeys_mapErase (k : List Nat) (m : ItemListMap)
    (h : normKeys m) : normKeys (mapErase k m) :=
  fun kv hkv => h kv (List.mem_of_mem_filter hkv)

theorem normKeys_setItem (key : List Nat) (item : Item) (m : ItemListMap)
    (h : normKeys m) : normKeys (setItem key item m) := by
  unfold setItem
  split
  · exact h
  · exact normKeys_mapInsert _ _ _ (upperStr_idem key) h

theorem normKeys_removeItem (key : List Nat) (m : ItemListMap)
    (h : normKeys m) : normKeys (removeItem key m) :=
  normKeys_mapErase _ _ h

theorem normKeys_addValue (key value : List Nat) (replace : Bool) (m : ItemListMap)
    (h : normKeys m) : normKeys (addValue key value replace m) := by
  simp only [addValue]
  have h1 : normKeys (if replace = true then removeItem key m else m) := by
    cases replace
    · exact h
    · exact normKeys_removeItem _ _ h
  generalize hq : (if replace = true then removeItem key m else m) = m1 at h1 ⊢
  split
  · exact h1
  · split
    · split
      · exact normKeys_mapInsert _ _ _ (upperStr_idem key) h1
      · exact normKeys_setItem _ _ _ h1
    · exact normKeys_setItem _ _ _ h1

theorem normKeys_setData (key value : List Nat) (m : ItemListMap)
    (h : normKeys m) : normKeys (setData key value m) := by
  simp only [setData]
  have h1 : normKeys (removeItem key m) := normKeys_removeItem _ _ h
  split
  · exact h1
  · exact normKeys_setItem _ _ _ h1

theorem normKeys_parseLoop (d : List Nat) (fuel pos : Nat) (m : ItemListMap)
    (h : normKeys m) : normKeys (parseLoop d fuel pos m) := by
  induction fuel generalizing pos m with
  | zero => exact h
  | succ fuel ih =>
    rw [parseLoop]
    split
    · cases hf : find0 d (pos + 8) with
      | none => exact h
      | some nullPos =>
        simp only
        split
        · exact h
        · apply ih
          split
          · exact normKeys_mapInsert _ _ _ (upperStr_idem _) h
          · exact h
    · exact h

/-- C10: every key present in the item store equals its own
upper-cased form — the invariant holds for the empty store of a
freshly constructed tag and is preserved by `setItem`, `addValue`,
`setData` and `parse`, each of which inserts under the upper-cased
key. -/
theorem store_keys_normalized :
    normKeys [] ∧
    (∀ key item m, normKeys m → normKeys (setItem key item m)) ∧
    (∀ key value replace m, normKeys m → normKeys (addValue key value replace m)) ∧
    (∀ key value m, normKeys m → normKeys (setData key value m)) ∧
    (∀ d fuel pos m, normKeys m → normKeys (parseLoop d fuel pos m)) ∧
    (∀ d itemCount m, normKeys m → normKeys (tagParse d itemCount m)) := by
  refine ⟨fun kv hkv => absurd hkv (List.not_mem_nil kv),
    fun key item m h => normKeys_setItem key item m h,
    fun key value replace m h => normKeys_addValue key value replace m h,
    fun key value m h => normKeys_setData key value m h,
    fun d fuel pos m h => normKeys_parseLoop d fuel pos m h,
    fun d itemCount m h => ?_⟩
  unfold tagParse
  split
  · exact h
  · exact normKeys_parseLoop d itemCount 0 m h

/-- Witness for C10: the invariant concretely holds after inserting a
mixed-case key into the empty store with `addValue`. -/
theorem store_keys_normalized_witness :
    normKeys (addValue (chars "Year") (chars "2024") true []) :=
  store_keys_normalized.2.2.1 (chars "Year") (chars "2024") true []
    (fun kv hkv => absurd hkv (List.not_mem_nil kv))

theorem checkKey_bounds (key : List Nat) (h : checkKey key = true) :
    2 ≤ key.length ∧ key.length ≤ 255 ∧ isKeyValid key = true := by
  unfold checkKey at h
  split at h
  · exact absurd h (by simp)
  · rename_i hg
    simp only [Bool.or_eq_true, decide_eq_true_eq, not_or, MinKeyLength, MaxKeyLength] at hg
    refine ⟨?_, ?_, h⟩ <;> omega

theorem isKeyValid_bytes (key : List Nat) (h : isKeyValid key = true) :
    ∀ c ∈ key, 32 ≤ c ∧ c ≤ 126 := by
  unfold isKeyValid at h
  simp only [Bool.and_eq_true, List.all_eq_true] at h
  intro c hc
  have := h.1 c hc
  simp at this
  omega

theorem byteAt_drop (d : List Nat) (p i : Nat) : byteAt (d.drop p) i = byteAt d (p + i) := by
  induction d generalizing p with
  | nil => simp [byteAt]
  | cons c rest ih =>
    cases p with
    | zero => simp
    | succ p =>
      have h1 : (c :: rest).drop (p + 1) = rest.drop p := rfl
      have h2 : p + 1 + i = (p + i) + 1 := by omega
      rw [h1, h2]
      exact ih p

theorem toUInt_drop (d : List Nat) (p : Nat) : toUInt (d.drop p) 0 = toUInt d p := by
  unfold toUInt
  rw [byteAt_drop, byteAt_drop, byteAt_drop, byteAt_drop]
  simp only [Nat.add_zero, Nat.zero_add]

theorem toUInt_le4_fst (n : Nat) (z : List Nat) (hn : n < 4294967296) :
    toUInt (toLE4 n ++ z) 0 = n := by
  simp only [toLE4, toUInt, List.cons_append, List.nil_append, byteAt]
  omega

theorem toUInt_le4_snd (n m : Nat) (z : List Nat) (hm : m < 4294967296) :
    toUInt (toLE4 n ++ (toLE4 m ++ z)) 4 = m := by
  simp only [toLE4, toUInt, List.cons_append, List.nil_append, byteAt]
  omega

theorem drop8_le4 (n m : Nat) (z : List Nat) : (toLE4 n ++ (toLE4 m ++ z)).drop 8 = z := rfl

theorem idxOfZero_sep (key t : List Nat) (h : ∀ c ∈ key, c ≠ 0) :
    idxOfZero (key ++ 0 :: t) = some key.length := by
  induction key with
  | nil => simp [idxOfZero]
  | cons c rest ih =>
    have hc : c ≠ 0 := h c (List.mem_cons_self _ _)
    simp only [List.cons_append, idxOfZero, if_neg hc, List.append_eq]
    rw [ih (fun x hx => h x (List.mem_cons_of_mem _ hx))]
    rfl

theorem takeWhile_sep (key t : List Nat) (h : ∀ c ∈ key, c ≠ 0) :
    (key ++ 0 :: t).takeWhile (fun c => decide (c ≠ 0)) = key := by
  induction key with
  | nil => simp [List.takeWhile]
  | cons c rest ih =>
    have hc : c ≠ 0 := h c (List.mem_cons_self _ _)
    simp only [List.cons_append, List.takeWhile_cons, decide_eq_true_eq]
    rw [if_pos hc, ih (fun x hx => h x (List.mem_cons_of_mem _ hx))]

theorem drop_sep (key t : List Nat) : (key ++ 0 :: t).drop (key.length + 1) = t := by
  have : key ++ 0 :: t = (key ++ [0]) ++ t := by simp
  rw [this]
  have hl : (key ++ [0]).length = key.length + 1 := by simp
  rw [← hl]
  exact List.drop_left _ _

theorem itemRender_shape (it : Item) (rest : List Nat) :
    itemRender it ++ rest =
      toLE4 (itemValueData it).length ++
        (toLE4 (2 * typeCode it.type) ++ (it.key ++ 0 :: (itemValueData it ++ rest))) := by
  simp [itemRender, List.append_assoc]

theorem itemRender_length (it : Item) :
    (itemRender it).length = it.key.length + (itemValueData it).length + 9 := by
  simp [itemRender, toLE4]
  omega

theorem key_bytes_nonzero (key : List Nat) (h : checkKey key = true) :
    ∀ c ∈ key, c ≠ 0 := by
  intro c hc
  have hb := isKeyValid_bytes key (checkKey_bounds key h).2.2 c hc
  omega

theorem itemParse_render (k : List Nat) (it : Item) (rest : List Nat)
    (h : itemWF (k, it) = true) : itemParse (itemRender it ++ rest) = it := by
  obtain ⟨key, ty, values, data⟩ := it
  have hshape := itemRender_shape ⟨key, ty, values, data⟩ rest
  cases ty with
  | Text =>
    simp only [itemWF, Bool.and_eq_true, decide_eq_true_eq, List.all_eq_true,
      Bool.not_eq_true', List.isEmpty_iff] at h
    obtain ⟨⟨hkey, -⟩, ⟨⟨hne, hvals⟩, hdata⟩, hlen⟩ := h
    have hk0 : ∀ c ∈ key, c ≠ 0 := key_bytes_nonzero key hkey
    simp only [itemValueData] at hshape
    rw [hshape]
    unfold itemParse
    have h1 : toUInt (toLE4 (List.intercalate [0] values).length ++
        (toLE4 (2 * typeCode ItemType.Text) ++
          (key ++ 0 :: (List.intercalate [0] values ++ rest)))) 0 =
        (List.intercalate [0] values).length := toUInt_le4_fst _ _ hlen
    have h2 : toUInt (toLE4 (List.intercalate [0] values).length ++
        (toLE4 (2 * typeCode ItemType.Text) ++
          (key ++ 0 :: (List.intercalate [0] values ++ rest)))) 4 =
        2 * typeCode ItemType.Text := toUInt_le4_snd _ _ _ (by simp [typeCode])
    have h3 : (toLE4 (List.intercalate [0] values).length ++
        (toLE4 (2 * typeCode ItemType.Text) ++
          (key ++ 0 :: (List.intercalate [0] values ++ rest)))).drop 8 =
        key ++ 0 :: (List.intercalate [0] values ++ rest) := drop8_le4 _ _ _
    have h4 : (toLE4 (List.intercalate [0] values).length ++
        (toLE4 (2 * typeCode ItemType.Text) ++
          (key ++ 0 :: (List.intercalate [0] values ++ rest)))).drop (9 + key.length) =
        List.intercalate [0] values ++ rest := by
      have e : 9 + key.length = 8 + (key.length + 1) := by omega
      rw [e, ← List.drop_drop, h3, drop_sep]
    have hne2 : values ≠ [] := by cases values <;> simp_all
    have hsplit : (List.intercalate [0] values).splitOn 0 = values :=
      List.splitOn_intercalate values 0 (fun v hv hc => ((hvals v hv 0 hc).1 rfl)) hne2
    simp only [h1, h2, h3, takeWhile_sep _ _ hk0, h4, List.take_left]
    norm_num [typeCode, typeOfCode, hsplit, hdata]
  | Binary =>
    simp only [itemWF, Bool.and_eq_true, decide_eq_true_eq, List.all_eq_true,
      List.isEmpty_iff] at h
    obtain ⟨⟨hkey, -⟩, ⟨hvals, hbytes⟩, hlen⟩ := h
    have hk0 : ∀ c ∈ key, c ≠ 0 := key_bytes_nonzero key hkey
    simp only [itemValueData] at hshape
    rw [hshape]
    unfold itemParse
    have h1 : toUInt (toLE4 data.length ++
        (toLE4 (2 * typeCode ItemType.Binary) ++ (key ++ 0 :: (data ++ rest)))) 0 =
        data.length := toUInt_le4_fst _ _ hlen
    have h2 : toUInt (toLE4 data.length ++
        (toLE4 (2 * typeCode ItemType.Binary) ++ (key ++ 0 :: (data ++ rest)))) 4 =
        2 * typeCode ItemType.Binary := toUInt_le4_snd _ _ _ (by simp [typeCode])
    have h3 : (toLE4 data.length ++
        (toLE4 (2 * typeCode ItemType.Binary) ++ (key ++ 0 :: (data ++ rest)))).drop 8 =
        key ++ 0 :: (data ++ rest) := drop8_le4 _ _ _
    have h4 : (toLE4 data.length ++
        (toLE4 (2 * typeCode ItemType.Binary) ++
          (key ++ 0 :: (data ++ rest)))).drop (9 + key.length) = data ++ rest := by
      have e : 9 + key.length = 8 + (key.length + 1) := by omega
      rw [e, ← List.drop_drop, h3, drop_sep]
    simp only [h1, h2, h3, takeWhile_sep _ _ hk0, h4, List.take_left]
    norm_num [typeCode, typeOfCode, hvals]
  | Locator =>
    simp only [itemWF, Bool.and_eq_true, decide_eq_true_eq, List.all_eq_true,
      List.isEmpty_iff] at h
    obtain ⟨⟨hkey, -⟩, ⟨hvals, hbytes⟩, hlen⟩ := h
    have hk0 : ∀ c ∈ key, c ≠ 0 := key_bytes_nonzero key hkey
    simp only [itemValueData] at hshape
    rw [hshape]
    unfold itemParse
    have h1 : toUInt (toLE4 data.length ++
        (toLE4 (2 * typeCode ItemType.Locator) ++ (key ++ 0 :: (data ++ rest)))) 0 =
        data.length := toUInt_le4_fst _ _ hlen
    have h2 : toUInt (toLE4 data.length ++
        (toLE4 (2 * typeCode ItemType.Locator) ++ (key ++ 0 :: (data ++ rest)))) 4 =
        2 * typeCode ItemType.Locator := toUInt_le4_snd _ _ _ (by simp [typeCode])
    have h3 : (toLE4 data.length ++
        (toLE4 (2 * typeCode ItemType.Locator) ++ (key ++ 0 :: (data ++ rest)))).drop 8 =
        key ++ 0 :: (data ++ rest) := drop8_le4 _ _ _
    have h4 : (toLE4 data.length ++
        (toLE4 (2 * typeCode ItemType.Locator) ++
          (key ++ 0 :: (data ++ rest)))).drop (9 + key.length) = data ++ rest := by
      have e : 9 + key.length = 8 + (key.length + 1) := by omega
      rw [e, ← List.drop_drop, h3, drop_sep]
    simp only [h1, h2, h3, takeWhile_sep _ _ hk0, h4, List.take_left]
    norm_num [typeCode, typeOfCode, hvals]

theorem mapInsert_append_of_absent (k : List Nat) (it : Item) (m : ItemListMap)
    (h : mapLookup k m = none) : mapInsert k it m = m ++ [(k, it)] := by
  induction m with
  | nil => rfl
  | cons kv rest ih =>
    by_cases hq : kv.1 = k
    · simp [mapLookup, List.find?, hq] at h
    · simp only [mapLookup, List.find?, hq] at h
      rw [mapInsert, if_neg hq, List.cons_append]
      congr 1
      apply ih
      simpa [mapLookup, hq] using h

theorem mapLookup_append_absent (q k : List Nat) (it : Item) (m : ItemListMap)
    (h1 : mapLookup q m = none) (h2 : q ≠ k) :
    mapLookup q (m ++ [(k, it)]) = none := by
  induction m with
  | nil =>
    simp only [List.nil_append, mapLookup, List.find?]
    rw [decide_eq_false (fun h => h2 h.symm)]
    rfl
  | cons kv rest ih =>
    simp only [List.cons_append, mapLookup, List.find?] at h1 ⊢
    by_cases hq : kv.1 = q
    · rw [decide_eq_true hq] at h1
      simp at h1
    · rw [decide_eq_false hq] at h1 ⊢
      exact ih h1

theorem itemWF_checkKey (k : List Nat) (it : Item) (h : itemWF (k, it) = true) :
    checkKey it.key = true := by
  simp only [itemWF, Bool.and_eq_true] at h
  exact h.1.1

theorem itemWF_key_eq (k : List Nat) (it : Item) (h : itemWF (k, it) = true) :
    k = upperStr it.key := by
  simp only [itemWF, Bool.and_eq_true, decide_eq_true_eq] at h
  exact h.1.2

theorem itemWF_vd_len (k : List Nat) (it : Item) (h : itemWF (k, it) = true) :
    (itemValueData it).length < 4294967296 := by
  obtain ⟨key, ty, values, data⟩ := it
  cases ty <;>
    simp only [itemWF, itemValueData, Bool.and_eq_true, decide_eq_true_eq] at h <;>
    tauto

theorem parseLoop_renders (s : ItemListMap) :
    ∀ (d : List Nat) (pos : Nat) (m : ItemListMap),
      storeWF s →
      d.drop pos = renderItems s →
      d.length = pos + (renderItems s).length →
      (∀ kv ∈ s, mapLookup kv.1 m = none) →
      parseLoop d s.length pos m = m ++ s := by
  induction s with
  | nil =>
    intro d pos m _ _ _ _
    simp [parseLoop]
  | cons kv s' ih =>
    obtain ⟨k, it⟩ := kv
    intro d pos m hwf hd hdlen hlook
    simp only [renderItems] at hd hdlen
    obtain ⟨hnd, hwfall⟩ := hwf
    simp only [List.map_cons, List.nodup_cons] at hnd
    obtain ⟨hknot, hnd'⟩ := hnd
    have hwfhead : itemWF (k, it) = true := hwfall (k, it) (List.mem_cons_self _ _)
    have hwf' : storeWF s' :=
      ⟨hnd', fun kv2 h2 => hwfall kv2 (List.mem_cons_of_mem _ h2)⟩
    have hck : checkKey it.key = true := itemWF_checkKey k it hwfhead
    have hkeq : k = upperStr it.key := itemWF_key_eq k it hwfhead
    have hvdlen : (itemValueData it).length < 4294967296 := itemWF_vd_len k it hwfhead
    have hkb := checkKey_bounds it.key hck
    have hk0 : ∀ c ∈ it.key, c ≠ 0 := key_bytes_nonzero it.key hck
    have hrlen : (itemRender it).length = it.key.length + (itemValueData it).length + 9 :=
      itemRender_length it
    have hdlen2 : d.length =
        pos + (it.key.length + (itemValueData it).length + 9) + (renderItems s').length := by
      rw [hdlen, List.length_append, hrlen]
      omega
    have hcond1 : pos + 11 ≤ d.length := by omega
    have hdrop8 : d.drop (pos + 8) = it.key ++ 0 :: (itemValueData it ++ renderItems s') := by
      rw [← List.drop_drop, hd, itemRender_shape, drop8_le4]
    have hfind : find0 d (pos + 8) = some (pos + 8 + it.key.length) := by
      unfold find0
      rw [hdrop8, idxOfZero_sep _ _ hk0]
      rfl
    have hkl : pos + 8 + it.key.length - pos - 8 = it.key.length := by omega
    have hvl : toUInt d pos = (itemValueData it).length := by
      rw [← toUInt_drop, hd, itemRender_shape]
      exact toUInt_le4_fst _ _ hvdlen
    have htake : (d.drop (pos + 8)).take it.key.length = it.key := by
      rw [hdrop8]
      exact List.take_left _ _
    have hitem : itemParse (d.drop pos) = it := by
      rw [hd]
      exact itemParse_render k it _ hwfhead
    have hbound : ¬((itemValueData it).length ≥ d.length ∨
        pos > d.length - (itemValueData it).length) := by omega
    have hkc : MinKeyLength ≤ it.key.length ∧ it.key.length ≤ MaxKeyLength ∧
        isKeyValid it.key = true := ⟨hkb.1, hkb.2.1, hkb.2.2⟩
    have hlka : mapLookup k m = none := hlook (k, it) (List.mem_cons_self _ _)
    have hlook' : ∀ kv2 ∈ s', mapLookup kv2.1 (m ++ [(k, it)]) = none := by
      intro kv2 h2
      refine mapLookup_append_absent kv2.1 k it m
        (hlook kv2 (List.mem_cons_of_mem _ h2)) ?_
      intro hq
      exact hknot (hq ▸ List.mem_map_of_mem Prod.fst h2)
    have hd' : d.drop (pos + it.key.length + (itemValueData it).length + 9) =
        renderItems s' := by
      have e : pos + it.key.length + (itemValueData it).length + 9 =
          pos + (itemRender it).length := by omega
      rw [e, ← List.drop_drop, hd, List.drop_left]
    have hdlen' : d.length =
        (pos + it.key.length + (itemValueData it).length + 9) +
          (renderItems s').length := by omega
    show parseLoop d (s'.length + 1) pos m = m ++ (k, it) :: s'
    rw [parseLoop, if_pos hcond1, hfind]
    simp only [hkl, hvl, htake, hitem]
    rw [if_neg hbound, if_pos hkc]
    rw [← hkeq, mapInsert_append_of_absent k it m hlka]
    rw [ih d (pos + it.key.length + (itemValueData it).length + 9)
      (m ++ [(k, it)]) hwf' hd' hdlen' hlook']
    simp

/-- C1: for every item store whose entries are well formed (valid keys
stored under their upper-cased form, with representable values),
rendering the store and parsing the rendered item data back with the
footer item count set by render reproduces exactly the same store —
the same normalized keys and, for each key, the same item (type and
ordered value sequence); equality of the stores makes the agreement
independent of iteration order. -/
theorem render_parse_roundtrip (s : ItemListMap) (h : storeWF s) :
    tagParse (renderItems s) (renderItemCount s) [] = s := by
  cases s with
  | nil => rfl
  | cons kv s' =>
    obtain ⟨k, it⟩ := kv
    have hwfhead : itemWF (k, it) = true := h.2 (k, it) (List.mem_cons_self _ _)
    have hkb := checkKey_bounds it.key (itemWF_checkKey k it hwfhead)
    have hrlen := itemRender_length it
    have hlen : ¬((renderItems ((k, it) :: s')).length < 11) := by
      simp only [renderItems, List.length_append]
      omega
    unfold tagParse renderItemCount
    rw [if_neg hlen]
    have hmain := parseLoop_renders ((k, it) :: s') (renderItems ((k, it) :: s')) 0 [] h
      (by simp) (by simp) (fun kv2 h2 => rfl)
    simpa using hmain

/-- Witness for C1: the round trip holds on a concrete two-item store
holding a two-valued Text item and a Binary item whose payload even
contains NUL and maximal bytes. -/
theorem render_parse_roundtrip_witness :
    storeWF
        [(chars "ALBUM", ⟨chars "Album", ItemType.Text, [chars "B-side", chars "Caro"], []⟩),
         (chars "COVER", ⟨chars "Cover", ItemType.Binary, [], [0, 1, 255]⟩)] ∧
      tagParse
          (renderItems
            [(chars "ALBUM", ⟨chars "Album", ItemType.Text, [chars "B-side", chars "Caro"], []⟩),
             (chars "COVER", ⟨chars "Cover", ItemType.Binary, [], [0, 1, 255]⟩)])
          (renderItemCount
            [(chars "ALBUM", ⟨chars "Album", ItemType.Text, [chars "B-side", chars "Caro"], []⟩),
             (chars "COVER", ⟨chars "Cover", ItemType.Binary, [], [0, 1, 255]⟩)])
          [] =
        [(chars "ALBUM", ⟨chars "Album", ItemType.Text, [chars "B-side", chars "Caro"], []⟩),
         (chars "COVER", ⟨chars "Cover", ItemType.Binary, [], [0, 1, 255]⟩)] :=
  ⟨by decide, render_parse_roundtrip _ (by decide)⟩

/-- Counterexample for C8: `setProperties` does not leave every
non-Text item unchanged for every incoming map — when the incoming map
contains the key of a pre-existing Binary item, the apply pass
replaces that item with a Text item. -/
theorem setProperties_replaces_included_binary :
    (⟨chars "Cover", ItemType.Binary, [], [1, 2, 3]⟩ : Item).type ≠ ItemType.Text ∧
      mapLookup (chars "COVER")
          (setProperties [(chars "COVER", [chars "x"])]
            [(chars "COVER", ⟨chars "Cover", ItemType.Binary, [], [1, 2, 3]⟩)]).2 ≠
        some ⟨chars "Cover", ItemType.Binary, [], [1, 2, 3]⟩ := by
  decide

theorem mapLookup_mem (k : List Nat) (it : Item) (m : ItemListMap)
    (h : mapLookup k m = some it) : (k, it) ∈ m := by
  induction m with
  | nil => simp [mapLookup] at h
  | cons kv rest ih =>
    simp only [mapLookup, List.find?] at h
    by_cases hq : kv.1 = k
    · rw [decide_eq_true hq] at h
      have h2 : kv.2 = it := by simpa using h
      have he : kv = (k, it) := by
        obtain ⟨a, b⟩ := kv
        simp only at hq h2
        rw [hq, h2]
      rw [← he]
      exact List.mem_cons_self _ _
    · rw [decide_eq_false hq] at h
      exact List.mem_cons_of_mem _ (ih h)

theorem mem_mapLookup_of_nodup (kv : List Nat × Item) (m : ItemListMap)
    (hnd : (m.map Prod.fst).Nodup) (h : kv ∈ m) : mapLookup kv.1 m = some kv.2 := by
  induction m with
  | nil => simp at h
  | cons kv0 rest ih =>
    simp only [List.map_cons, List.nodup_cons] at hnd
    rcases List.mem_cons.mp h with he | hm
    · rw [he]
      simp [mapLookup, List.find?]
    · have hne : kv0.1 ≠ kv.1 := by
        intro hq
        exact hnd.1 (hq ▸ List.mem_map_of_mem Prod.fst hm)
      simp only [mapLookup, List.find?]
      rw [decide_eq_false hne]
      exact ih hnd.2 hm

theorem mapLookup_erase_other (q k : List Nat) (m : ItemListMap) (h : q ≠ k) :
    mapLookup k (mapErase q m) = mapLookup k m := by
  induction m with
  | nil => rfl
  | cons kv rest ih =>
    by_cases hq : kv.1 = q
    · have hk : kv.1 ≠ k := fun hc => h (hq ▸ hc ▸ rfl)
      simp only [mapErase, List.filter_cons] at ih ⊢
      rw [decide_eq_false (by simpa using hq)]
      rw [show mapLookup k (kv :: rest) = mapLookup k rest by
        simp only [mapLookup, List.find?]; rw [decide_eq_false hk]]
      exact ih
    · simp only [mapErase, List.filter_cons] at ih ⊢
      rw [decide_eq_true (by simpa using hq)]
      simp only [mapLookup, List.find?]
      by_cases hk : kv.1 = k
      · rw [decide_eq_true hk]
      · rw [decide_eq_false hk]
        exact ih

theorem mapLookup_insert_other (q k : List Nat) (it : Item) (m : ItemListMap) (h : q ≠ k) :
    mapLookup k (mapInsert q it m) = mapLookup k m := by
  induction m with
  | nil =>
    simp only [mapInsert, mapLookup, List.find?]
    rw [decide_eq_false (by simpa using h)]
  | cons kv rest ih =>
    unfold mapInsert
    by_cases hq : kv.1 = q
    · rw [if_pos hq]
      simp only [mapLookup, List.find?]
      rw [decide_eq_false (by simpa using h), decide_eq_false (by rw [hq]; simpa using h)]
    · rw [if_neg hq]
      simp only [mapLookup, List.find?]
      by_cases hk : kv.1 = k
      · rw [decide_eq_true hk]
      · rw [decide_eq_false hk]
        exact ih

theorem setItem_lookup_other (q k : List Nat) (it : Item) (m : ItemListMap)
    (h : upperStr q ≠ k) : mapLookup k (setItem q it m) = mapLookup k m := by
  unfold setItem
  split
  · rfl
  · exact mapLookup_insert_other _ _ _ _ h

theorem addValue_lookup_other (q v : List Nat) (r : Bool) (k : List Nat) (m : ItemListMap)
    (h : upperStr q ≠ k) : mapLookup k (addValue q v r m) = mapLookup k m := by
  simp only [addValue]
  have h1 : mapLookup k (if r = true then removeItem q m else m) = mapLookup k m := by
    cases r
    · rfl
    · exact mapLookup_erase_other _ _ _ h
  generalize hq : (if r = true then removeItem q m else m) = m1 at h1 ⊢
  split
  · exact h1
  · split
    · split
      · rw [mapLookup_insert_other _ _ _ _ h]
        exact h1
      · rw [setItem_lookup_other _ _ _ _ h]
        exact h1
    · rw [setItem_lookup_other _ _ _ _ h]
      exact h1

theorem addValue_foldl_lookup_other (q : List Nat) (vs : List (List Nat)) (k : List Nat)
    (m : ItemListMap) (h : upperStr q ≠ k) :
    mapLookup k (vs.foldl (fun s w => addValue q w false s) m) = mapLookup k m := by
  induction vs generalizing m with
  | nil => rfl
  | cons v rest ih =>
    simp only [List.foldl_cons]
    rw [ih, addValue_lookup_other _ _ _ _ _ h]

theorem propInsert_norm (t : List Nat) (v : List (List Nat)) (p : PropMap)
    (h : ∀ kv ∈ p, upperStr kv.1 = kv.1) :
    ∀ kv ∈ propInsert t v p, upperStr kv.1 = kv.1 := by
  induction p with
  | nil =>
    intro kv hkv
    simp only [propInsert, List.mem_singleton] at hkv
    rw [hkv]
    exact upperStr_idem t
  | cons kv0 rest ih =>
    unfold propInsert
    split
    · intro kv hkv
      rcases List.mem_cons.mp hkv with he | hm
      · rw [he]
        exact h kv0 (List.mem_cons_self _ _)
      · exact h kv (List.mem_cons_of_mem _ hm)
    · intro kv hkv
      rcases List.mem_cons.mp hkv with he | hm
      · rw [he]
        exact h kv0 (List.mem_cons_self _ _)
      · exact ih (fun kv2 h2 => h kv2 (List.mem_cons_of_mem _ h2)) kv hm

theorem propErase_norm (t : List Nat) (p : PropMap)
    (h : ∀ kv ∈ p, upperStr kv.1 = kv.1) :
    ∀ kv ∈ propErase t p, upperStr kv.1 = kv.1 :=
  fun kv hkv => h kv (List.mem_of_mem_filter hkv)

theorem translateProps_norm (p : PropMap) (h : ∀ kv ∈ p, upperStr kv.1 = kv.1) :
    ∀ kv ∈ translateProps p, upperStr kv.1 = kv.1 := by
  unfold translateProps
  have hgen : ∀ (l : List (List Nat × List Nat)) (acc : PropMap),
      (∀ kv ∈ acc, upperStr kv.1 = kv.1) →
      ∀ kv ∈ l.foldl
        (fun acc kt =>
          if propContains kt.1 acc then propErase kt.1 (propInsert kt.2 (propGet kt.1 acc) acc)
          else acc) acc, upperStr kv.1 = kv.1 := by
    intro l
    induction l with
    | nil => intro acc hacc; exact hacc
    | cons kt rest ih =>
      intro acc hacc
      simp only [List.foldl_cons]
      apply ih
      split
      · exact propErase_norm _ _ (propInsert_norm _ _ _ hacc)
      · exact hacc
  exact hgen keyConversions p h

theorem propContains_false_keys (k : List Nat) (p : PropMap)
    (h : propContains k p = false) : ∀ kv ∈ p, kv.1 ≠ upperStr k := by
  intro kv hkv
  have hfind : p.find? (fun kv => kv.1 = upperStr k) = none := by
    cases hf : p.find? (fun kv => kv.1 = upperStr k) with
    | none => rfl
    | some x =>
      unfold propContains propLookup at h
      rw [hf] at h
      simp at h
  have hp := List.find?_eq_none.mp hfind kv hkv
  simpa using hp

theorem foldl_removeItem_lookup (keys : List (List Nat)) (m : ItemListMap) (k : List Nat)
    (h : ∀ q ∈ keys, upperStr q ≠ k) :
    mapLookup k (keys.foldl (fun acc q => removeItem q acc) m) = mapLookup k m := by
  induction keys generalizing m with
  | nil => rfl
  | cons q rest ih =>
    simp only [List.foldl_cons]
    rw [ih _ (fun q2 h2 => h q2 (List.mem_cons_of_mem _ h2))]
    exact mapLookup_erase_other _ _ _ (h q (List.mem_cons_self _ _))

theorem removalPass_preserves_nonText (p : PropMap) (m : ItemListMap) (k : List Nat)
    (it : Item)
    (hnd : (m.map Prod.fst).Nodup)
    (hnorm : normKeys m)
    (hlook : mapLookup k m = some it)
    (hty : it.type ≠ ItemType.Text) :
    mapLookup k (removalPass p m) = some it := by
  unfold removalPass
  refine (foldl_removeItem_lookup _ _ _ ?_).trans hlook
  intro q hq
  obtain ⟨kv, hkvf, hkvq⟩ := List.mem_map.mp hq
  obtain ⟨hkvm, hcond⟩ := List.mem_filter.mp hkvf
  have hqn : upperStr q = q := by
    rw [← hkvq]
    exact hnorm kv hkvm
  rw [hqn]
  intro hqk
  have htext : kv.2.type = ItemType.Text := by
    simp only [Bool.and_eq_true, decide_eq_true_eq] at hcond
    exact hcond.1.2
  have hlk : mapLookup kv.1 m = some kv.2 := mem_mapLookup_of_nodup kv m hnd hkvm
  rw [hkvq, hqk, hlook] at hlk
  have : it = kv.2 := by injection hlk
  rw [this] at hty
  exact hty htext

theorem applyPass_lookup_preserved (l : PropMap) (inv : PropMap) (st : ItemListMap)
    (k : List Nat)
    (h : ∀ kv ∈ l, kv.1 ≠ k ∧ upperStr kv.1 = kv.1) :
    mapLookup k (applyPass l (inv, st)).2 = mapLookup k st := by
  induction l generalizing inv st with
  | nil => rfl
  | cons kv rest ih =>
    obtain ⟨tagName, value⟩ := kv
    have hh := h (tagName, value) (List.mem_cons_self _ _)
    have hup : upperStr tagName ≠ k := by
      simp only at hh
      rw [hh.2]
      exact hh.1
    have ht : ∀ kv2 ∈ rest, kv2.1 ≠ k ∧ upperStr kv2.1 = kv2.1 :=
      fun kv2 h2 => h kv2 (List.mem_cons_of_mem _ h2)
    unfold applyPass
    split
    · exact ih _ _ ht
    · split
      · exact ih _ _ ht
      · split
        · rw [ih _ _ ht]
          exact mapLookup_erase_other _ _ _ hup
        · rw [ih _ _ ht, addValue_foldl_lookup_other _ _ _ _ hup,
            addValue_lookup_other _ _ _ _ _ hup]

/-- C8 (amended): for every store with duplicate-free, normalized keys
and every incoming property map with normalized keys, `setProperties`
leaves every non-Text (Binary or Locator) item whose key is absent
from the alias-translated incoming map unchanged — in particular the
removal pass never removes a non-Text item; a non-Text item whose key
does occur in the incoming map may instead be replaced by the apply
pass. -/
theorem setProperties_preserves_absent_nonText (props : PropMap) (m : ItemListMap)
    (k : List Nat) (it : Item)
    (hnd : (m.map Prod.fst).Nodup)
    (hnorm : normKeys m)
    (hpw : ∀ kv ∈ props, upperStr kv.1 = kv.1)
    (hlook : mapLookup k m = some it)
    (hty : it.type ≠ ItemType.Text)
    (habs : propContains k (translateProps props) = false) :
    mapLookup k (setProperties props m).2 = some it := by
  simp only [setProperties]
  have hkk : upperStr k = k := hnorm (k, it) (mapLookup_mem _ _ _ hlook)
  have hkeys2 : ∀ kv ∈ translateProps props, kv.1 ≠ k ∧ upperStr kv.1 = kv.1 := by
    intro kv hkv
    refine ⟨?_, translateProps_norm props hpw kv hkv⟩
    have hne := propContains_false_keys k _ habs kv hkv
    rw [hkk] at hne
    exact hne
  rw [applyPass_lookup_preserved _ _ _ _ hkeys2]
  exact removalPass_preserves_nonText _ _ _ _ hnd hnorm hlook hty

/-- Witness for the amended C8: a Binary item under `COVER` survives a
`setProperties` call whose incoming map only mentions `TITLE`. -/
theorem setProperties_preserves_absent_nonText_witness :
    mapLookup (chars "COVER")
        (setProperties [(chars "TITLE", [chars "x"])]
          [(chars "COVER", ⟨chars "Cover", ItemType.Binary, [], [1, 2, 3]⟩)]).2 =
      some ⟨chars "Cover", ItemType.Binary, [], [1, 2, 3]⟩ :=
  setProperties_preserves_absent_nonText [(chars "TITLE", [chars "x"])]
    [(chars "COVER", ⟨chars "Cover", ItemType.Binary, [], [1, 2, 3]⟩)]
    (chars "COVER") ⟨chars "Cover", ItemType.Binary, [], [1, 2, 3]⟩
    (by decide) (by decide) (by decide) (by decide) (by decide) (by decide)

end ApeTag
